import Mathlib

/-!
Shallow embedding of the LFU cache from `src/lib.rs` (crate `lfu`).

The Rust type is

  pub struct LFU {
      items: HashMap<String, Bytes>,
      frequency_list: Vec<Vec<String>>,
      max_size: usize,
      current_size: usize,
  }

We model `Bytes` as a list of byte values, the `HashMap` as an association
list with unique keys (insert replaces in place, remove deletes the unique
entry, both returning the old value exactly as `HashMap::insert` /
`HashMap::remove` do), and `Vec<Vec<String>>` as `List (List String)`.
`usize` arithmetic in the source only ever adds small sizes, so `Nat` is
used (no overflow is reachable in the modelled computations, which only
add payload lengths).
-/

/-- Payload bytes (`bytes::Bytes` in the source); `len()` is `List.length`. -/
abbrev Bytes := List Nat

/-- The key-to-payload map (`HashMap<String, Bytes>` in the source). -/
abbrev Items := List (String × Bytes)

/-- Lookup, as `HashMap::get` / indexing: the value of the unique entry for
`k`, if any. -/
def itemsGet : Items → String → Option Bytes
  | [], _ => none
  | (k', v) :: rest, k => if k' = k then some v else itemsGet rest k

/-- Membership test, as `HashMap::contains_key`. -/
def itemsContains (m : Items) (k : String) : Bool :=
  (itemsGet m k).isSome

/-- Insert, as `HashMap::insert`: replaces the value for an existing key in
place and returns the old value; appends a new entry otherwise. -/
def itemsInsert : Items → String → Bytes → Option Bytes × Items
  | [], k, v => (none, [(k, v)])
  | (k', v') :: rest, k, v =>
    if k' = k then (some v', (k, v) :: rest)
    else
      let r := itemsInsert rest k v
      (r.1, (k', v') :: r.2)

/-- Remove, as `HashMap::remove`: deletes the entry for `k` and returns its
value, if present. -/
def itemsRemove : Items → String → Option Bytes × Items
  | [], _ => (none, [])
  | (k', v') :: rest, k =>
    if k' = k then (some v', rest)
    else
      let r := itemsRemove rest k
      (r.1, (k', v') :: r.2)

/-- Total number of payload bytes stored in the map: the sum that the
spec's invariant compares `current_size` against. -/
def itemsSizeSum (m : Items) : Nat :=
  (m.map fun p => p.2.length).sum

/-- The cache state of `pub struct LFU`. -/
structure LFU where
  items : Items
  frequency_list : List (List String)
  max_size : Nat
  current_size : Nat
deriving DecidableEq

/-- Models `LFU::new()`: empty maps, `max_size = 64`, `current_size = 0`. -/
def LFU.new : LFU :=
  { items := [], frequency_list := [], max_size := 64, current_size := 0 }

/-- The `max_size` builder method (named differently here only because the
field of the same name already takes that Lean name). -/
def LFU.withMaxSize (c : LFU) (size : Nat) : LFU :=
  { c with max_size := size }

/-- Index of the first inner list of `fl` containing `key`, if any: the
loop of `get_frequency` returns this index when it finds the key. -/
def findFreqIdx (key : String) : List (List String) → Option Nat
  | [] => none
  | b :: rest => if key ∈ b then some 0 else (findFreqIdx key rest).map (· + 1)

/-- The value `get_frequency` returns: the first index whose key list
contains `key`, and 0 when no list does (the loop falls through to 0). -/
def getFrequencyVal (fl : List (List String)) (key : String) : Nat :=
  (findFreqIdx key fl).getD 0

/-- Models `pub fn get_frequency(&mut self, key)`.  When `frequency_list` is empty
it pushes one empty list (a mutation) and falls through to 0; otherwise it
scans for the first list containing the key and returns its index, or 0. -/
def LFU.get_frequency (c : LFU) (key : String) : Nat × LFU :=
  if c.frequency_list = [] then
    (0, { c with frequency_list := [[]] })
  else
    (getFrequencyVal c.frequency_list key, c)

/-- Models `fn increment_frequency(&mut self, key)`.  Reads the key's frequency
`f` (possibly initialising the list), then: if the key is absent from the
list at index `f` it is pushed there; otherwise it is removed from that
list and pushed onto the list at index `f + 1`, appending a new singleton
list at the end when index `f + 1` does not exist (which, since `f` is in
range, appends exactly at position `f + 1`). -/
def LFU.increment_frequency (c : LFU) (key : String) : LFU :=
  let p := c.get_frequency key
  let f := p.1
  let c1 := p.2
  let key_list := c1.frequency_list.getD f []
  if key ∈ key_list then
    let fl2 := c1.frequency_list.set f (key_list.filter fun s => s ≠ key)
    match fl2.get? (f + 1) with
    | none => { c1 with frequency_list := fl2 ++ [[key]] }
    | some l2 => { c1 with frequency_list := fl2.set (f + 1) (l2 ++ [key]) }
  else
    { c1 with frequency_list := c1.frequency_list.set f (key_list ++ [key]) }

/-- Models `fn zero_frequency(&mut self, key)`.  If the key's frequency is
nonzero, removes the key from the list at that index.  (The source's
unreachable failure arm for a missing index is dead: a nonzero result of
`get_frequency` is always an in-range found index, and `List.set` out of
range is a no-op.) -/
def LFU.zero_frequency (c : LFU) (key : String) : LFU :=
  let p := c.get_frequency key
  let f := p.1
  let c1 := p.2
  if f ≠ 0 then
    { c1 with
        frequency_list :=
          c1.frequency_list.set f
            ((c1.frequency_list.getD f []).filter fun s => s ≠ key) }
  else
    c1

/-- Models `pub fn get(&mut self, key)`: `None` if the key is absent, otherwise
increment the frequency and return the stored payload. -/
def LFU.get (c : LFU) (key : String) : Option Bytes × LFU :=
  if itemsContains c.items key then
    let c1 := c.increment_frequency key
    (itemsGet c1.items key, c1)
  else
    (none, c)

/-- Models `fn insert_raw(&mut self, key, value)`: zero the key's frequency, add
`value.len()` to `current_size` (the old entry's size is not subtracted),
and insert into `items`, returning the previous payload. -/
def LFU.insert_raw (c : LFU) (key : String) (value : Bytes) : Option Bytes × LFU :=
  let c1 := c.zero_frequency key
  let c2 := { c1 with current_size := c1.current_size + value.length }
  let r := itemsInsert c2.items key value
  (r.1, { c2 with items := r.2 })

/-- The body of `fn evict`'s two nested `for` loops, visiting the keys of
`frequency_list` in list order (outer loop over the inner lists, inner
loop over their keys — i.e. the concatenation in order).  Each key found in
`items` is removed and its size added to `space_freed`; the loop returns
`Some(space_freed)` as soon as `space_freed >= space_needed`, and the
fall-through returns `None` (keeping all removals).  `current_size` and
`frequency_list` are not touched. -/
def evictLoop (space_needed : Nat) : List String → Items → Nat → Option Nat × Items
  | [], items, _ => (none, items)
  | k :: rest, items, space_freed =>
    let r := itemsRemove items k
    match r.1 with
    | none => evictLoop space_needed rest r.2 space_freed
    | some v =>
      let freed := space_freed + v.length
      if space_needed ≤ freed then (some freed, r.2)
      else evictLoop space_needed rest r.2 freed

/-- Models `fn evict(&mut self, space_needed)`. -/
def LFU.evict (c : LFU) (space_needed : Nat) : Option Nat × LFU :=
  let r := evictLoop space_needed c.frequency_list.flatten c.items 0
  (r.1, { c with items := r.2 })

/-- Models `pub fn insert(&mut self, key, value)`: when
`current_size + value.len() >= max_size`, run `evict(value.len())` and
only call `insert_raw` when it reports at least `value.len()` bytes freed;
otherwise call `insert_raw` directly.  All mutations made by a failed
eviction persist. -/
def LFU.insert (c : LFU) (key : String) (value : Bytes) : Option Bytes × LFU :=
  if c.max_size ≤ c.current_size + value.length then
    let r := c.evict value.length
    match r.1 with
    | some freed =>
      if value.length ≤ freed then r.2.insert_raw key value
      else (none, r.2)
    | none => (none, r.2)
  else
    c.insert_raw key value

/-- One public operation of the cache, for stating properties of operation
sequences. -/
inductive Op where
  | opInsert (key : String) (value : Bytes)
  | opGet (key : String)
  | opGetFrequency (key : String)
deriving DecidableEq

/-- Apply one public operation (discarding the returned value). -/
def applyOp (c : LFU) : Op → LFU
  | Op.opInsert k v => (c.insert k v).2
  | Op.opGet k => (c.get k).2
  | Op.opGetFrequency k => (c.get_frequency k).2

/-- Run a sequence of public operations. -/
def runOps (c : LFU) (ops : List Op) : LFU :=
  ops.foldl applyOp c

/-- The key `k` occurs in at most one inner list of `fl` (the spec's
invariant E1, which holds in every reachable state). -/
def keyOnce (k : String) (fl : List (List String)) : Prop :=
  ∀ i, i < fl.length → ∀ j, j < fl.length →
    k ∈ fl.getD i [] → k ∈ fl.getD j [] → i = j

instance (k : String) (fl : List (List String)) : Decidable (keyOnce k fl) :=
  Nat.decidableBallLT _ _

/-- Removal of each key of `ks` in order from the map; used to state which
entries one eviction pass deletes. -/
def removeList (m : Items) (ks : List String) : Items :=
  ks.foldl (fun m2 k => (itemsRemove m2 k).2) m

/-- Example state: a fresh cache after `insert("a", [120])`. -/
def exIns : LFU := (LFU.new.insert "a" [120]).2

/-- Example state: `exIns` after two `get("a")` calls; the key now sits in
the key list at index 1, so its reported frequency is 1. -/
def exGot : LFU := ((exIns.get "a").2.get "a").2

/-- Example state: `new().max_size(3)` after `insert("a", [52, 50])` and one
`get("a")` (so the key is recorded in the frequency list). -/
def exCap : LFU := (((LFU.new.withMaxSize 3).insert "a" [52, 50]).2.get "a").2

/-- Example state: `new().max_size(4)` after inserting two 1-byte keys that
were never fetched (so neither appears in the frequency list). -/
def exTwo : LFU := (((LFU.new.withMaxSize 4).insert "a" [49]).2.insert "b" [50]).2

/-- Example state: a replacement insert on a fresh cache (insert one byte
under "a", then two bytes under "a"). -/
def exRepl : LFU := ((LFU.new.insert "a" [48]).2.insert "a" [48, 49]).2

/-- Example state: `new().max_size(3)`, insert two bytes under "a", fetch it
once, then insert two bytes under "b", which triggers an eviction. -/
def exOver : LFU :=
  ((((LFU.new.withMaxSize 3).insert "a" [52, 50]).2.get "a").2.insert "b" [52, 51]).2

/-! Basic lemmas about `List.getD` with `List.set` and append. -/

theorem getD_set_self {α : Type _} (l : List α) (i : Nat) (x d : α)
    (h : i < l.length) : (l.set i x).getD i d = x := by
  rw [List.getD_eq_getD_get?, List.get?_set_eq_of_lt x h, Option.getD_some]

theorem getD_set_ne {α : Type _} (l : List α) (i j : Nat) (x d : α)
    (h : i ≠ j) : (l.set i x).getD j d = l.getD j d := by
  rw [List.getD_eq_getD_get?, List.get?_set_ne x l h, ← List.getD_eq_getD_get?]

/-! Lemmas about the association-list model of `HashMap`. -/

theorem itemsGet_itemsInsert_self (m : Items) (k : String) (v : Bytes) :
    itemsGet (itemsInsert m k v).2 k = some v := by
  induction m with
  | nil => simp [itemsInsert, itemsGet]
  | cons p rest ih =>
    by_cases h : p.1 = k
    · simp [itemsInsert, itemsGet, h]
    · simp [itemsInsert, itemsGet, h, ih]

theorem itemsInsert_fst (m : Items) (k : String) (v : Bytes) :
    (itemsInsert m k v).1 = itemsGet m k := by
  induction m with
  | nil => simp [itemsInsert, itemsGet]
  | cons p rest ih =>
    by_cases h : p.1 = k
    · simp [itemsInsert, itemsGet, h]
    · simp [itemsInsert, itemsGet, h, ih]

theorem itemsContains_of_itemsRemove (m : Items) (k' k : String)
    (h : itemsContains (itemsRemove m k').2 k = true) :
    itemsContains m k = true := by
  induction m with
  | nil => simpa [itemsRemove] using h
  | cons p rest ih =>
    by_cases hp : p.1 = k'
    · simp only [itemsRemove, hp, if_true] at h
      by_cases hk : p.1 = k
      · simp [itemsContains, itemsGet, hk]
      · simpa [itemsContains, itemsGet, hk] using h
    · simp only [itemsRemove, hp, if_false] at h
      by_cases hk : p.1 = k
      · simp [itemsContains, itemsGet, hk]
      · simp only [itemsContains, itemsGet, if_neg hk] at h ⊢
        exact ih (by simpa [itemsContains, itemsGet, hk] using h)

theorem itemsRemove_none (m : Items) (k : String)
    (h : (itemsRemove m k).1 = none) : (itemsRemove m k).2 = m := by
  induction m with
  | nil => simp [itemsRemove]
  | cons p rest ih =>
    by_cases hp : p.1 = k
    · simp [itemsRemove, hp] at h
    · simp only [itemsRemove, hp, if_false] at h ⊢
      simp [ih h]

theorem itemsRemove_some_sum (m : Items) (k : String) (v : Bytes)
    (h : (itemsRemove m k).1 = some v) :
    itemsSizeSum (itemsRemove m k).2 + v.length = itemsSizeSum m := by
  induction m with
  | nil => simp [itemsRemove] at h
  | cons p rest ih =>
    by_cases hp : p.1 = k
    · simp only [itemsRemove, hp, if_true] at h ⊢
      cases h
      simp [itemsSizeSum]
      omega
    · simp only [itemsRemove, hp, if_false] at h ⊢
      have := ih h
      simp only [itemsSizeSum, List.map_cons, List.sum_cons] at this ⊢
      omega

theorem itemsGet_itemsRemove_ne (m : Items) (k' k : String) (h : k ≠ k') :
    itemsGet (itemsRemove m k').2 k = itemsGet m k := by
  induction m with
  | nil => simp [itemsRemove]
  | cons p rest ih =>
    have hkk : ¬ k' = k := fun e => h e.symm
    by_cases hp : p.1 = k'
    · simp [itemsRemove, hp, itemsGet, hkk]
    · by_cases hk : p.1 = k
      · simp [itemsRemove, hp, itemsGet, hk, h]
      · simp [itemsRemove, hp, itemsGet, hk, ih]

/-! Lemmas about the first-match scan of `get_frequency`. -/

theorem findFreqIdx_eq_none_iff (k : String) (fl : List (List String)) :
    findFreqIdx k fl = none ↔ k ∉ fl.flatten := by
  induction fl with
  | nil => simp [findFreqIdx]
  | cons b rest ih =>
    by_cases hb : k ∈ b
    · simp [findFreqIdx, hb]
    · simp [findFreqIdx, hb, ih]

theorem findFreqIdx_some_spec (k : String) (fl : List (List String)) (f : Nat)
    (h : findFreqIdx k fl = some f) :
    f < fl.length ∧ k ∈ fl.getD f [] ∧ ∀ i, i < f → k ∉ fl.getD i [] := by
  induction fl generalizing f with
  | nil => simp [findFreqIdx] at h
  | cons b rest ih =>
    by_cases hb : k ∈ b
    · simp only [findFreqIdx, hb, if_true, Option.some.injEq] at h
      subst h
      exact ⟨by simp, by simpa using hb, fun i hi => absurd hi (Nat.not_lt_zero i)⟩
    · simp only [findFreqIdx, hb, if_false, Option.map_eq_some'] at h
      obtain ⟨f', hf', rfl⟩ := h
      obtain ⟨h1, h2, h3⟩ := ih f' hf'
      refine ⟨by simpa using h1, by simpa using h2, ?_⟩
      intro i hi
      cases i with
      | zero => simpa using hb
      | succ i' =>
        simpa using h3 i' (Nat.lt_of_succ_lt_succ hi)

theorem findFreqIdx_eq_some_of (k : String) (fl : List (List String)) (f : Nat)
    (h1 : f < fl.length) (h2 : k ∈ fl.getD f [])
    (h3 : ∀ i, i < f → k ∉ fl.getD i []) :
    findFreqIdx k fl = some f := by
  induction fl generalizing f with
  | nil => simp at h1
  | cons b rest ih =>
    cases f with
    | zero => simp only [findFreqIdx, List.getD_cons_zero] at h2 ⊢; simp [h2]
    | succ f' =>
      have hb : k ∉ b := by simpa using h3 0 (Nat.succ_pos f')
      have hrec : findFreqIdx k rest = some f' := by
        refine ih f' (by simpa using h1) (by simpa using h2) ?_
        intro i hi
        simpa using h3 (i + 1) (Nat.succ_lt_succ hi)
      simp [findFreqIdx, hb, hrec]

theorem findFreqIdx_eq_none_of (k : String) (fl : List (List String))
    (h : ∀ i, i < fl.length → k ∉ fl.getD i []) :
    findFreqIdx k fl = none := by
  induction fl with
  | nil => simp [findFreqIdx]
  | cons b rest ih =>
    have hb : k ∉ b := by simpa using h 0 (Nat.succ_pos _)
    have hrec : findFreqIdx k rest = none := by
      refine ih ?_
      intro i hi
      simpa using h (i + 1) (Nat.succ_lt_succ hi)
    simp [findFreqIdx, hb, hrec]

theorem mem_flatten_of_mem_getD (k : String) (fl : List (List String)) (i : Nat)
    (hi : i < fl.length) (h : k ∈ fl.getD i []) : k ∈ fl.flatten := by
  rw [List.getD_eq_getElem fl [] hi] at h
  exact List.mem_flatten.mpr ⟨fl[i], List.getElem_mem hi, h⟩

/-! Frame lemmas: which fields each operation leaves untouched. -/

theorem get_frequency_fst (c : LFU) (k : String) :
    (c.get_frequency k).1 = getFrequencyVal c.frequency_list k := by
  unfold LFU.get_frequency
  split
  · rename_i h; simp [h, getFrequencyVal, findFreqIdx]
  · rfl

theorem get_frequency_items (c : LFU) (k : String) :
    (c.get_frequency k).2.items = c.items := by
  unfold LFU.get_frequency; split <;> rfl

theorem get_frequency_current (c : LFU) (k : String) :
    (c.get_frequency k).2.current_size = c.current_size := by
  unfold LFU.get_frequency; split <;> rfl

theorem get_frequency_max (c : LFU) (k : String) :
    (c.get_frequency k).2.max_size = c.max_size := by
  unfold LFU.get_frequency; split <;> rfl

theorem zero_frequency_items (c : LFU) (k : String) :
    (c.zero_frequency k).items = c.items := by
  unfold LFU.zero_frequency
  dsimp only
  split <;> exact get_frequency_items c k

theorem zero_frequency_current (c : LFU) (k : String) :
    (c.zero_frequency k).current_size = c.current_size := by
  unfold LFU.zero_frequency
  dsimp only
  split <;> exact get_frequency_current c k

theorem zero_frequency_max (c : LFU) (k : String) :
    (c.zero_frequency k).max_size = c.max_size := by
  unfold LFU.zero_frequency
  dsimp only
  split <;> exact get_frequency_max c k

theorem increment_frequency_items (c : LFU) (k : String) :
    (c.increment_frequency k).items = c.items := by
  unfold LFU.increment_frequency
  dsimp only
  split
  · split <;> exact get_frequency_items c k
  · exact get_frequency_items c k

theorem increment_frequency_current (c : LFU) (k : String) :
    (c.increment_frequency k).current_size = c.current_size := by
  unfold LFU.increment_frequency
  dsimp only
  split
  · split <;> exact get_frequency_current c k
  · exact get_frequency_current c k

theorem increment_frequency_max (c : LFU) (k : String) :
    (c.increment_frequency k).max_size = c.max_size := by
  unfold LFU.increment_frequency
  dsimp only
  split
  · split <;> exact get_frequency_max c k
  · exact get_frequency_max c k

theorem insert_raw_frequency_list (c : LFU) (k : String) (v : Bytes) :
    (c.insert_raw k v).2.frequency_list = (c.zero_frequency k).frequency_list := rfl

theorem insert_raw_fst (c : LFU) (k : String) (v : Bytes) :
    (c.insert_raw k v).1 = itemsGet c.items k := by
  unfold LFU.insert_raw
  dsimp only
  rw [itemsInsert_fst]
  exact congrArg (fun m => itemsGet m k) (zero_frequency_items c k)

theorem insert_raw_items (c : LFU) (k : String) (v : Bytes) :
    (c.insert_raw k v).2.items = (itemsInsert c.items k v).2 := by
  unfold LFU.insert_raw
  dsimp only
  rw [zero_frequency_items]

theorem insert_raw_current (c : LFU) (k : String) (v : Bytes) :
    (c.insert_raw k v).2.current_size = c.current_size + v.length := by
  unfold LFU.insert_raw
  dsimp only
  rw [zero_frequency_current]

theorem insert_raw_max (c : LFU) (k : String) (v : Bytes) :
    (c.insert_raw k v).2.max_size = c.max_size := by
  unfold LFU.insert_raw
  dsimp only
  exact zero_frequency_max c k

theorem evict_fst (c : LFU) (n : Nat) :
    (c.evict n).1 = (evictLoop n c.frequency_list.flatten c.items 0).1 := rfl

theorem evict_items (c : LFU) (n : Nat) :
    (c.evict n).2.items = (evictLoop n c.frequency_list.flatten c.items 0).2 := rfl

theorem evict_frequency_list (c : LFU) (n : Nat) :
    (c.evict n).2.frequency_list = c.frequency_list := rfl

theorem evict_current (c : LFU) (n : Nat) :
    (c.evict n).2.current_size = c.current_size := rfl

theorem evict_max (c : LFU) (n : Nat) :
    (c.evict n).2.max_size = c.max_size := rfl

/-! Core lemmas about frequency values after the mutating helpers. -/

theorem zero_frequency_freqVal (c : LFU) (k : String)
    (h : keyOnce k c.frequency_list) :
    getFrequencyVal (c.zero_frequency k).frequency_list k = 0 := by
  by_cases hfl : c.frequency_list = []
  · simp only [LFU.zero_frequency, LFU.get_frequency, hfl, if_pos]
    simp [getFrequencyVal, findFreqIdx]
  · simp only [LFU.zero_frequency, LFU.get_frequency, hfl, if_neg, if_false]
    rcases hidx : findFreqIdx k c.frequency_list with _ | f
    · simp [getFrequencyVal, hidx]
    · obtain ⟨hlt, hmem, _⟩ := findFreqIdx_some_spec k _ f hidx
      rcases Nat.eq_zero_or_pos f with hf0 | hfpos
      · subst hf0
        simp [getFrequencyVal, hidx]
      · have hval : getFrequencyVal c.frequency_list k = f := by
          simp [getFrequencyVal, hidx]
        rw [hval, if_pos (by omega : f ≠ 0)]
        have hnone :
            findFreqIdx k
              (c.frequency_list.set f
                ((c.frequency_list.getD f []).filter fun s => s ≠ k)) = none := by
          apply findFreqIdx_eq_none_of
          intro i hi
          rw [List.length_set] at hi
          by_cases hif : i = f
          · subst hif
            rw [getD_set_self _ _ _ _ hlt]
            simp
          · rw [getD_set_ne _ _ _ _ _ fun e => hif e.symm]
            intro hmi
            exact hif (h i hi f hlt hmi hmem)
        unfold getFrequencyVal
        rw [hnone]
        rfl

theorem insert_raw_freqVal (c : LFU) (k : String) (v : Bytes)
    (h : keyOnce k c.frequency_list) :
    getFrequencyVal ((c.insert_raw k v).2).frequency_list k = 0 := by
  rw [insert_raw_frequency_list]
  exact zero_frequency_freqVal c k h

theorem increment_freqVal_mem (c : LFU) (k : String)
    (hm : k ∈ c.frequency_list.flatten) :
    getFrequencyVal (c.increment_frequency k).frequency_list k
      = getFrequencyVal c.frequency_list k + 1 := by
  have hfl : c.frequency_list ≠ [] := by
    intro h; rw [h] at hm; simp at hm
  rcases hidx : findFreqIdx k c.frequency_list with _ | f
  · rw [findFreqIdx_eq_none_iff] at hidx
    exact absurd hm hidx
  obtain ⟨hlt, hmem, hfirst⟩ := findFreqIdx_some_spec k _ f hidx
  have hval : getFrequencyVal c.frequency_list k = f := by
    simp [getFrequencyVal, hidx]
  simp only [LFU.increment_frequency, LFU.get_frequency, hfl, if_neg, if_false]
  rw [hval, if_pos hmem]
  have hbelow :
      ∀ i, i < f + 1 →
        k ∉ (c.frequency_list.set f
          ((c.frequency_list.getD f []).filter fun s => s ≠ k)).getD i [] := by
    intro i hi
    by_cases hif : i = f
    · subst hif
      rw [getD_set_self _ _ _ _ hlt]
      simp
    · rw [getD_set_ne _ _ _ _ _ fun e => hif e.symm]
      exact hfirst i (by omega)
  have hlen2 :
      (c.frequency_list.set f
        ((c.frequency_list.getD f []).filter fun s => s ≠ k)).length
        = c.frequency_list.length := List.length_set _ _ _
  rcases hg :
      (c.frequency_list.set f
        ((c.frequency_list.getD f []).filter fun s => s ≠ k)).get? (f + 1)
      with _ | l2
  · have hle : c.frequency_list.length ≤ f + 1 := by
      rw [← hlen2]
      exact List.get?_eq_none.mp hg
    have hflen : (c.frequency_list.set f
        ((c.frequency_list.getD f []).filter fun s => s ≠ k)).length = f + 1 := by
      omega
    have hsome :
        findFreqIdx k
          ((c.frequency_list.set f
            ((c.frequency_list.getD f []).filter fun s => s ≠ k)) ++ [[k]])
          = some (f + 1) := by
      apply findFreqIdx_eq_some_of
      · simp only [List.length_append, List.length_singleton]
        omega
      · rw [List.getD_append_right _ _ _ _ (le_of_eq hflen), hflen]
        simp
      · intro i hi
        rw [List.getD_append _ _ _ _ (by omega)]
        exact hbelow i hi
    unfold getFrequencyVal
    rw [hsome]
    rfl
  · have hlt2 : f + 1 < (c.frequency_list.set f
        ((c.frequency_list.getD f []).filter fun s => s ≠ k)).length := by
      by_contra hc
      push_neg at hc
      rw [List.get?_eq_none.mpr hc] at hg
      exact Option.noConfusion hg
    have hsome :
        findFreqIdx k
          ((c.frequency_list.set f
            ((c.frequency_list.getD f []).filter fun s => s ≠ k)).set (f + 1)
            (l2 ++ [k]))
          = some (f + 1) := by
      apply findFreqIdx_eq_some_of
      · simp only [List.length_set]
        omega
      · rw [getD_set_self _ _ _ _ hlt2]
        simp
      · intro i hi
        rw [getD_set_ne _ _ _ _ _ (by omega : f + 1 ≠ i)]
        exact hbelow i hi
    unfold getFrequencyVal
    rw [hsome]
    rfl

theorem increment_freqVal_not_mem (c : LFU) (k : String)
    (hm : k ∉ c.frequency_list.flatten) :
    getFrequencyVal (c.increment_frequency k).frequency_list k = 0 := by
  have hidx : findFreqIdx k c.frequency_list = none :=
    (findFreqIdx_eq_none_iff k c.frequency_list).mpr hm
  have hval : getFrequencyVal c.frequency_list k = 0 := by
    simp [getFrequencyVal, hidx]
  by_cases hfl : c.frequency_list = []
  · simp only [LFU.increment_frequency, LFU.get_frequency, hfl, if_pos]
    simp [getFrequencyVal, findFreqIdx]
  · simp only [LFU.increment_frequency, LFU.get_frequency, hfl, if_neg, if_false]
    rw [hval]
    have h0 : 0 < c.frequency_list.length := List.length_pos.mpr hfl
    have hk0 : k ∉ c.frequency_list.getD 0 [] := fun hh =>
      hm (mem_flatten_of_mem_getD k _ 0 h0 hh)
    rw [if_neg hk0]
    have hsome :
        findFreqIdx k
          (c.frequency_list.set 0 ((c.frequency_list.getD 0 []) ++ [k]))
          = some 0 := by
      apply findFreqIdx_eq_some_of
      · simpa using h0
      · rw [getD_set_self _ _ _ _ h0]
        simp
      · intro i hi
        exact absurd hi (Nat.not_lt_zero i)
    unfold getFrequencyVal
    rw [hsome]
    rfl

/-! Lemmas about the eviction loop. -/

theorem evictLoop_contains (n : Nat) (ks : List String) (m : Items) (a : Nat)
    (k : String) (h : itemsContains (evictLoop n ks m a).2 k = true) :
    itemsContains m k = true := by
  induction ks generalizing m a with
  | nil => simpa [evictLoop] using h
  | cons k2 rest ih =>
    simp only [evictLoop] at h
    rcases hr : (itemsRemove m k2).1 with _ | v
    · simp only [hr] at h
      exact itemsContains_of_itemsRemove m k2 k (ih _ _ h)
    · simp only [hr] at h
      by_cases hn : n ≤ a + v.length
      · rw [if_pos hn] at h
        exact itemsContains_of_itemsRemove m k2 k h
      · rw [if_neg hn] at h
        exact itemsContains_of_itemsRemove m k2 k (ih _ _ h)

theorem evictLoop_some_le (n : Nat) (ks : List String) (m : Items) (a : Nat)
    (freed : Nat) (h : (evictLoop n ks m a).1 = some freed) :
    freed ≤ a + itemsSizeSum m := by
  induction ks generalizing m a with
  | nil => simp [evictLoop] at h
  | cons k2 rest ih =>
    simp only [evictLoop] at h
    rcases hr : (itemsRemove m k2).1 with _ | v
    · simp only [hr] at h
      have heq := itemsRemove_none m k2 hr
      have hle := ih _ _ h
      rw [heq] at hle
      exact hle
    · have hsum := itemsRemove_some_sum m k2 v hr
      simp only [hr] at h
      by_cases hn : n ≤ a + v.length
      · rw [if_pos hn] at h
        simp only [Option.some.injEq] at h
        omega
      · rw [if_neg hn] at h
        have hle := ih _ _ h
        omega

theorem evictLoop_removeList (n : Nat) (ks : List String) (m : Items) (a : Nat) :
    ∃ p s, ks = p ++ s ∧ (evictLoop n ks m a).2 = removeList m p := by
  induction ks generalizing m a with
  | nil => exact ⟨[], [], rfl, rfl⟩
  | cons k2 rest ih =>
    simp only [evictLoop]
    rcases hr : (itemsRemove m k2).1 with _ | v
    · simp only [hr]
      obtain ⟨p, s, h1, h2⟩ := ih (itemsRemove m k2).2 a
      exact ⟨k2 :: p, s, by rw [h1, List.cons_append], by rw [h2]; rfl⟩
    · simp only [hr]
      by_cases hn : n ≤ a + v.length
      · rw [if_pos hn]
        exact ⟨[k2], rest, rfl, rfl⟩
      · rw [if_neg hn]
        obtain ⟨p, s, h1, h2⟩ := ih (itemsRemove m k2).2 (a + v.length)
        exact ⟨k2 :: p, s, by rw [h1, List.cons_append], by rw [h2]; rfl⟩

theorem itemsGet_removeList_not_mem (m : Items) (ks : List String) (k : String)
    (h : k ∉ ks) : itemsGet (removeList m ks) k = itemsGet m k := by
  induction ks generalizing m with
  | nil => rfl
  | cons k2 rest ih =>
    have h1 : k ≠ k2 := fun e => h (by simp [e])
    have h2 : k ∉ rest := fun e => h (by simp [e])
    show itemsGet (removeList (itemsRemove m k2).2 rest) k = itemsGet m k
    rw [ih _ h2]
    exact itemsGet_itemsRemove_ne m k2 k h1

/-! Current-size accounting of the public operations. -/

theorem get_current (c : LFU) (k : String) :
    (c.get k).2.current_size = c.current_size := by
  unfold LFU.get
  split
  · exact increment_frequency_current c k
  · rfl

theorem insert_current_le (c : LFU) (k : String) (v : Bytes) :
    c.current_size ≤ (c.insert k v).2.current_size := by
  unfold LFU.insert
  split
  · rcases hr : (c.evict v.length).1 with _ | freed
    · simp only [hr]
      rw [evict_current]
    · simp only [hr]
      by_cases hf : v.length ≤ freed
      · rw [if_pos hf, insert_raw_current, evict_current]
        omega
      · rw [if_neg hf]
        exact le_of_eq (evict_current c v.length).symm
  · rw [insert_raw_current]
    omega

/-! Claim theorems. -/

/-- Claim C1 (code evaluation at the failing input): the spec demands
`current_bytes == Σ size of entries in index` after every operation, but
after `new(); insert("a", [48]); insert("a", [48, 49])` the code records
`current_size = 3` while the entries in the index total 2 bytes —
`insert_raw` adds the new payload's length without subtracting the replaced
entry's size. -/
theorem C1_byte_accounting_broken :
    exRepl.current_size = 3 ∧ itemsSizeSum exRepl.items = 2 := by decide

/-- Claim C2 (code evaluation at the failing input): the spec demands
`current_bytes ≤ max_bytes` after every successful operation, but after
`new().max_size(3); insert("a", [52, 50]); get("a"); insert("b", [52, 51])`
the insert of "b" succeeds (the key is stored) while the code records
`current_size = 4 > max_size = 3` — `evict` removes entries without ever
decreasing `current_size`. -/
theorem C2_capacity_exceeded :
    exOver.current_size = 4 ∧ exOver.max_size = 3 ∧
    itemsContains exOver.items "b" = true := by decide

/-- Claim C3 counterexample: after a successful insert of a fresh key the
claim says `get_frequency` returns 1, but the code returns 0 (a fresh key
is not added to the frequency list at all). -/
theorem C3_counterexample :
    itemsContains (((LFU.new.withMaxSize 1000).insert "a" [120]).2).items "a" = true ∧
    ((((LFU.new.withMaxSize 1000).insert "a" [120]).2).get_frequency "a").1 ≠ 1 := by
  decide

/-- Claim C3 (amended): for every key not currently in the cache that
occurs in at most one bucket of the frequency list, a successful insert of
that key places it at frequency 0 — `get_frequency` called on the key
immediately after the insert returns 0, not 1. -/
theorem C3_fresh_insert_frequency_zero (c : LFU) (k : String) (v : Bytes)
    (h1 : itemsContains c.items k = false)
    (h2 : keyOnce k c.frequency_list)
    (h3 : itemsContains ((c.insert k v).2).items k = true) :
    (((c.insert k v).2).get_frequency k).1 = 0 := by
  rw [get_frequency_fst]
  unfold LFU.insert at h3 ⊢
  by_cases hc : c.max_size ≤ c.current_size + v.length
  · rw [if_pos hc] at h3 ⊢
    rcases hr : (c.evict v.length).1 with _ | freed
    · simp only [hr] at h3
      rw [evict_items] at h3
      have hco := evictLoop_contains v.length c.frequency_list.flatten c.items 0 k h3
      rw [h1] at hco
      simp at hco
    · simp only [hr] at h3 ⊢
      by_cases hf : v.length ≤ freed
      · rw [if_pos hf]
        apply insert_raw_freqVal
        rw [evict_frequency_list]
        exact h2
      · rw [if_neg hf] at h3
        rw [evict_items] at h3
        have hco := evictLoop_contains v.length c.frequency_list.flatten c.items 0 k h3
        rw [h1] at hco
        simp at hco
  · rw [if_neg hc]
    exact insert_raw_freqVal c k v h2

/-- Witness for `C3_fresh_insert_frequency_zero` at a concrete input. -/
theorem C3_witness :
    (((LFU.new.insert "a" [120]).2).get_frequency "a").1 = 0 :=
  C3_fresh_insert_frequency_zero LFU.new "a" [120] (by decide) (by decide) (by decide)

/-- Claim C4 counterexample: the claim says each `get` of a present key
increases its frequency by exactly one, but the first `get` after an insert
leaves the reported frequency at 0 (it merely registers the key in the
frequency list, matching the crate's own doctest). -/
theorem C4_counterexample :
    itemsContains exIns.items "a" = true ∧
    (exIns.get_frequency "a").1 = 0 ∧
    (((exIns.get "a").2).get_frequency "a").1 = 0 := by decide

/-- Claim C4 (amended): for a key present in the cache, `get` increases the
reported frequency by exactly one when the key is already recorded in the
frequency list; the first `get` after the key's insertion (key not yet in
any bucket) leaves the reported frequency unchanged at 0. -/
theorem C4_get_increments_frequency (c : LFU) (k : String)
    (hk : itemsContains c.items k = true) :
    (((c.get k).2).get_frequency k).1 =
      if k ∈ c.frequency_list.flatten
      then (c.get_frequency k).1 + 1
      else (c.get_frequency k).1 := by
  rw [get_frequency_fst, get_frequency_fst]
  unfold LFU.get
  rw [if_pos hk]
  dsimp only
  by_cases hm : k ∈ c.frequency_list.flatten
  · rw [if_pos hm]
    exact increment_freqVal_mem c k hm
  · rw [if_neg hm]
    rw [increment_freqVal_not_mem c k hm]
    have hnone : findFreqIdx k c.frequency_list = none :=
      (findFreqIdx_eq_none_iff k c.frequency_list).mpr hm
    simp [getFrequencyVal, hnone]

/-- Witness for `C4_get_increments_frequency` at a concrete input. -/
theorem C4_witness :
    (((exGot.get "a").2).get_frequency "a").1 =
      if "a" ∈ exGot.frequency_list.flatten
      then (exGot.get_frequency "a").1 + 1
      else (exGot.get_frequency "a").1 :=
  C4_get_increments_frequency exGot "a" (by decide)

/-- Claim C5 counterexample: the claim says an oversized insert mutates no
cache state, but the partial eviction pass that precedes the rejection
removes existing entries from the key index and does not restore them:
inserting a 4-byte payload into a `max_size = 3` cache deletes the stored
key "a". -/
theorem C5_counterexample :
    exCap.max_size < ([49, 50, 51, 52] : Bytes).length ∧
    itemsContains exCap.items "a" = true ∧
    (exCap.insert "c" [49, 50, 51, 52]).1 = none ∧
    itemsContains ((exCap.insert "c" [49, 50, 51, 52]).2).items "a" = false := by
  decide

/-- Claim C5 (amended): for every cache whose stored payload bytes fit in
`max_size`, an insert whose payload length exceeds `max_size` is rejected
(`None` is returned) and leaves `current_size` and the frequency list (and
hence every reported frequency) unchanged — but entries already recorded in
the frequency list may be removed from the key index by the failed
eviction pass. -/
theorem C5_oversized_insert_rejected (c : LFU) (k : String) (v : Bytes)
    (hsum : itemsSizeSum c.items ≤ c.max_size)
    (hlen : c.max_size < v.length) :
    (c.insert k v).1 = none ∧
    (c.insert k v).2.current_size = c.current_size ∧
    (c.insert k v).2.frequency_list = c.frequency_list := by
  have hc : c.max_size ≤ c.current_size + v.length := by omega
  unfold LFU.insert
  rw [if_pos hc]
  rcases hr : (c.evict v.length).1 with _ | freed
  · simp only [hr]
    exact ⟨trivial, evict_current c v.length, evict_frequency_list c v.length⟩
  · simp only [hr]
    have hb : freed ≤ 0 + itemsSizeSum c.items := by
      apply evictLoop_some_le
      rw [← evict_fst]
      exact hr
    have hnf : ¬ (v.length ≤ freed) := by omega
    rw [if_neg hnf]
    exact ⟨rfl, evict_current c v.length, evict_frequency_list c v.length⟩

/-- Witness for `C5_oversized_insert_rejected` at a concrete input. -/
theorem C5_witness :
    (exCap.insert "c" [49, 50, 51, 52]).1 = none ∧
    (exCap.insert "c" [49, 50, 51, 52]).2.current_size = exCap.current_size ∧
    (exCap.insert "c" [49, 50, 51, 52]).2.frequency_list = exCap.frequency_list :=
  C5_oversized_insert_rejected exCap "c" [49, 50, 51, 52] (by decide) (by decide)

/-- Claim C6 counterexample: the claim says every key currently stored is
an eviction candidate, but keys never fetched since insertion are absent
from the frequency list and are never evicted: with `max_size = 4` and two
stored 1-byte keys, inserting a 2-byte key needs 2 bytes, yet nothing is
evicted and the insert fails while both stored keys survive. -/
theorem C6_counterexample :
    itemsSizeSum exTwo.items = 2 ∧
    (exTwo.insert "c" [51, 52]).1 = none ∧
    ((exTwo.insert "c" [51, 52]).2).items = exTwo.items ∧
    itemsContains ((exTwo.insert "c" [51, 52]).2).items "c" = false := by decide

/-- Claim C6 (amended): eviction scans exactly the keys recorded in the
frequency list, in bucket order starting from the lowest index, removing an
in-order prefix of them from the key index until enough space is freed;
keys not recorded in the frequency list (never fetched since insertion) are
not eviction candidates and keep their stored payload. -/
theorem C6_evict_removes_prefix (c : LFU) (needed : Nat) (k : String)
    (hk : k ∉ c.frequency_list.flatten) :
    (∃ p s, c.frequency_list.flatten = p ++ s ∧
      (c.evict needed).2.items = removeList c.items p) ∧
    itemsGet ((c.evict needed).2).items k = itemsGet c.items k := by
  obtain ⟨p, s, h1, h2⟩ :=
    evictLoop_removeList needed c.frequency_list.flatten c.items 0
  refine ⟨⟨p, s, h1, by rw [evict_items, h2]⟩, ?_⟩
  rw [evict_items, h2]
  apply itemsGet_removeList_not_mem
  intro hp
  exact hk (by rw [h1]; exact List.mem_append_left s hp)

/-- Witness for `C6_evict_removes_prefix` at a concrete input. -/
theorem C6_witness :
    (∃ p s, exCap.frequency_list.flatten = p ++ s ∧
      (exCap.evict 1).2.items = removeList exCap.items p) ∧
    itemsGet ((exCap.evict 1).2).items "b" = itemsGet exCap.items "b" :=
  C6_evict_removes_prefix exCap 1 "b" (by decide)

/-- Claim C7 counterexample: the claim says inserting over an existing key
preserves its frequency, but `insert_raw` calls `zero_frequency`, so a key
at frequency 1 drops to reported frequency 0 after the replacing insert. -/
theorem C7_counterexample :
    (exGot.get_frequency "a").1 = 1 ∧
    (exGot.insert "a" [121, 121]).1 = some [120] ∧
    (((exGot.insert "a" [121, 121]).2).get_frequency "a").1 = 0 := by decide

/-- Claim C7 (amended): for a key already present (occurring in at most one
frequency bucket), an insert of a fitting payload replaces the payload
(returning the old one) but resets the key's frequency: `get_frequency`
returns 0 immediately after the insert, whatever it returned before. -/
theorem C7_update_replaces_and_resets (c : LFU) (k : String) (v : Bytes)
    (_hin : itemsContains c.items k = true)
    (h2 : keyOnce k c.frequency_list)
    (hfit : c.current_size + v.length < c.max_size) :
    (c.insert k v).1 = itemsGet c.items k ∧
    itemsGet ((c.insert k v).2).items k = some v ∧
    (((c.insert k v).2).get_frequency k).1 = 0 := by
  have hc : ¬ (c.max_size ≤ c.current_size + v.length) := by omega
  unfold LFU.insert
  rw [if_neg hc]
  refine ⟨insert_raw_fst c k v, ?_, ?_⟩
  · rw [insert_raw_items]
    exact itemsGet_itemsInsert_self c.items k v
  · rw [get_frequency_fst]
    exact insert_raw_freqVal c k v h2

/-- Witness for `C7_update_replaces_and_resets` at a concrete input. -/
theorem C7_witness :
    (exGot.insert "a" [121, 121]).1 = itemsGet exGot.items "a" ∧
    itemsGet ((exGot.insert "a" [121, 121]).2).items "a" = some [121, 121] ∧
    (((exGot.insert "a" [121, 121]).2).get_frequency "a").1 = 0 :=
  C7_update_replaces_and_resets exGot "a" [121, 121] (by decide) (by decide) (by decide)

/-- Claim C8 counterexample: `get_frequency` is not a pure read on every
state — on a cache whose frequency list is empty it pushes one empty
bucket, changing the state. -/
theorem C8_counterexample :
    ((LFU.new.get_frequency "a").2).frequency_list ≠ LFU.new.frequency_list := by
  decide

/-- Claim C8 (amended): `get_frequency` leaves the entire cache state
unchanged whenever the frequency list is nonempty; only on an empty
frequency list does it mutate, by appending one empty bucket. -/
theorem C8_get_frequency_pure (c : LFU) (k : String)
    (h : c.frequency_list ≠ []) : (c.get_frequency k).2 = c := by
  unfold LFU.get_frequency
  rw [if_neg h]

/-- Witness for `C8_get_frequency_pure` at a concrete input. -/
theorem C8_witness : (exIns.get_frequency "a").2 = exIns :=
  C8_get_frequency_pure exIns "a" (by decide)

/-- Claim C9: `insert(k, v)` followed immediately by `get(k)` returns `v`;
the hypothesis `current_size + len(v) < max_size` is the "no eviction
displaced it" proviso (with it, the insert takes the direct path and no
eviction runs at all). -/
theorem C9_insert_then_get (c : LFU) (k : String) (v : Bytes)
    (hfit : c.current_size + v.length < c.max_size) :
    (((c.insert k v).2).get k).1 = some v := by
  have hc : ¬ (c.max_size ≤ c.current_size + v.length) := by omega
  unfold LFU.insert
  rw [if_neg hc]
  have hget : itemsGet ((c.insert_raw k v).2).items k = some v := by
    rw [insert_raw_items]
    exact itemsGet_itemsInsert_self c.items k v
  have hcon : itemsContains ((c.insert_raw k v).2).items k = true := by
    simp [itemsContains, hget]
  unfold LFU.get
  rw [if_pos hcon]
  dsimp only
  rw [increment_frequency_items, hget]

/-- Witness for `C9_insert_then_get` at a concrete input. -/
theorem C9_witness : (((LFU.new.insert "a" [120]).2).get "a").1 = some [120] :=
  C9_insert_then_get LFU.new "a" [120] (by decide)

/-- Claim C10: the recorded `current_size` is monotonically non-decreasing —
no public operation (insert with its eviction included, get, get_frequency)
ever decreases the counter, because `evict` never subtracts the bytes it
frees. -/
theorem C10_current_size_monotone (c : LFU) (op : Op) :
    c.current_size ≤ (applyOp c op).current_size := by
  cases op with
  | opInsert k v => exact insert_current_le c k v
  | opGet k => simp [applyOp, get_current]
  | opGetFrequency k => simp [applyOp, get_frequency_current]
